import Mathlib

/-!
Shallow embedding of the WiredTiger row-store search path (`src/btree/row_srch.c`):
`__wt_row_search`, `__wt_ins_search`, `__wt_key_build`, `__wt_key_build_serial_func`.

Keys are drawn from an abstract linearly ordered type `α`: the external comparator
`btree->btree_compare` is a total order over key representations, which we embed as the
order of `α` (equality / less-than tests mirror `cmp == 0` / `cmp < 0`).

Conventions of the embedding:
* Machine loop variables `base`, `limit`, `indx` are `Nat`; the C `for` loops are
  translated as structurally recursive functions on an explicit fuel argument that
  starts at `limit` (each iteration strictly decreases `limit`, so `limit` much fuel
  always suffices and the functions stay executable by `decide`/`rfl`).
* Fallible collaborator calls (`__wt_page_in` pinning a child, `__wt_cell_process`
  decoding an overflow/compressed cell) return `Except ErrCode _`, where an `ErrCode`
  is a nonzero integer: in the source `WT_ERR`/`WT_RET` treat exactly the nonzero
  returns as errors.
* The per-session return fields `session->srch_*` become the record `SResult`; a
  completed call is a `SearchDone` carrying the return code, the fields, and whether
  the leaf pin is still held at return (`WT_PAGE_OUT` on the `notfound`/`err` paths
  releases it; the plain `return (0)` path keeps it for the caller).
* Macros that live in `btree.i`/`wt_internal.h` rather than in this file's source
  (`WT_ROW_INDX_SLOT`, `WT_ROW_INSERT`, `WT_ROW_INSERT_SMALLEST`,
  `WT_UPDATE_DELETED_ISSET`, `WT_PAGE_OUT`, `__wt_key_process`, `__wt_ref_off_page`,
  `WT_MEMORY_FLUSH`) are modelled from the spec: slot arithmetic over parallel arrays
  indexed 1:1 with the on-disk slots plus one extra "smallest" slot, a deletion flag
  on updates, hazard-pin release, the size==0 pending test, the off-page pointer test,
  and an ordered two-step publish.
-/

namespace WTRowSearch

/-- Nonzero integer return codes: `WT_ERR` treats exactly nonzero returns as errors. -/
def ErrCode : Type := { e : Int // e ≠ 0 }

instance : Inhabited ErrCode := ⟨⟨1, one_ne_zero⟩⟩

/-- Modelled from the spec: `WT_NOTFOUND`, the distinguished nonzero "key absent"
return code (defined in `wiredtiger.in`, outside this source file). -/
def WT_NOTFOUND : Int := -31803

/-- Modelled from the spec: error code returned if descent runs out of fuel; never
reached when the fuel bounds the tree depth (the C loop terminates because the tree
is finite and acyclic). -/
def FUEL_ERR : ErrCode := ⟨-31999, by decide⟩

/-- An update (`WT_UPDATE`): the deletion flag models `WT_UPDATE_DELETED_ISSET`
(modelled from the spec: only "present" vs "deleted" is distinguished); `val`
distinguishes distinct update records. -/
structure Upd where
  deleted : Bool
  val : Nat := 0
deriving DecidableEq

/-- An insert-chain node (`WT_INSERT`): key bytes plus the owning update pointer
(`ins->upd`, possibly null); the `next` link is implicit in the enclosing list. -/
structure Ins (α : Type) where
  key : α
  upd : Option Upd
deriving DecidableEq

instance {α : Type} [Inhabited α] : Inhabited (Ins α) := ⟨⟨default, none⟩⟩

/-- A slot's key as seen by the search: either already resident (directly comparable)
or pending, in which case `__wt_key_build` must run the cell codec, which yields the
comparable key or fails with a nonzero error code. -/
inductive KeyCell (α : Type) where
  | resident (k : α)
  | pending (d : Except ErrCode α)

instance {α : Type} [Inhabited α] : Inhabited (KeyCell α) := ⟨.resident default⟩

/-- Materialize a key for comparison: lines 58-60 and 141-142 of the source
(`__wt_key_process` then `WT_ERR(__wt_key_build(...))`). -/
def resolveKey {α : Type} : KeyCell α → Except ErrCode α
  | .resident k => .ok k
  | .pending d => d

/-- Location of an update pointer (`session->srch_upd : WT_UPDATE **`): either the
slot's entry in the page's update array (`&page->u.row_leaf.upd[slot]`) or the `upd`
field of an insert-chain node (`&ins->upd`). -/
inductive UpdRef where
  | leafUpd (slot : Nat)
  | insUpd (pos : Nat)
deriving DecidableEq

/-- Location of an insert pointer (`session->srch_ins : WT_INSERT **`): either the
head link of an insert-array slot (`&page->u.row_leaf.ins[slot]`) or the `next` field
of the chain node at a given position (`&ins->next`). -/
inductive InsLink where
  | slotHead (slot : Nat)
  | nodeNext (pos : Nat)
deriving DecidableEq

/-- The `session->srch_*` return fields, cleared exactly as lines 29-37 clear them
(`srch_slot = UINT32_MAX` is modelled as `none`). -/
structure SResult where
  srch_page : Bool := false
  srch_write_gen : Nat := 0
  srch_match : Bool := false
  srch_ip : Option Nat := none
  srch_vupdate : Option Upd := none
  srch_ins : Option InsLink := none
  srch_upd : Option UpdRef := none
  srch_slot : Option Nat := none
  srch_exp : Option Nat := none
deriving DecidableEq

/-- A completed `__wt_row_search` call: the return code, the session fields at
return, and whether the leaf pin is still held (the `notfound`/`err` paths run
`WT_PAGE_OUT`, the success path returns with the pin held for the caller). -/
structure SearchDone where
  ret : Int
  res : SResult
  pinHeld : Bool
deriving DecidableEq

/-- A row-store leaf page: the on-disk slot keys (`page->u.row_leaf.d`, in slot
order), the optional update array (`page->u.row_leaf.upd`, one entry per slot) and
the optional insert array (`page->u.row_leaf.ins`, one chain per slot plus the extra
page-wide "smallest" chain at index `indx_count`), plus the write generation. -/
structure LeafPage (α : Type) where
  keys : List (KeyCell α)
  upd : Option (List (Option Upd)) := none
  ins : Option (List (List (Ins α))) := none
  write_gen : Nat := 0

/-- A page of the row-store tree as reached by descent: `pfail e` stands for a child
whose `__wt_page_in` pinning fails with nonzero code `e`; an internal page carries
its `WT_ROW_REF` array (key plus child); a leaf ends the descent. -/
inductive RPage (α : Type) where
  | pfail (e : ErrCode)
  | pint (refs : List (KeyCell α × RPage α))
  | pleaf (lp : LeafPage α)

instance {α : Type} [Inhabited α] : Inhabited (RPage α) := ⟨.pfail default⟩

variable {α : Type} [LinearOrder α] [Inhabited α]

/-! ### The leaf binary search loop, lines 133-152 (pure form, resident keys) -/

/-- One C `for` loop of lines 133-152 over a resident slot-key array: returns
`(some indx, base)` on `cmp == 0` and `(none, base)` when `limit` reaches 0.  The
first argument is fuel; fuel `= limit` always suffices since `limit` strictly
decreases (`limit >>= 1`, with `--limit` first on the `cmp > 0` branch). -/
def wtLoopF (key : α) (A : List α) : Nat → Nat → Nat → Option Nat × Nat
  | 0, base, _ => (none, base)
  | fuel + 1, base, limit =>
    if limit = 0 then (none, base)
    else
      let indx := base + limit / 2
      let a := A.getD indx default
      if key = a then (some indx, base)
      else if key < a then wtLoopF key A fuel base (limit / 2)
      else wtLoopF key A fuel (indx + 1) ((limit - 1) / 2)

/-- The leaf binary search of lines 133-152 started as the source starts it:
`base = 0, limit = page->indx_count`. -/
def wtBinSearch (key : α) (A : List α) : Option Nat × Nat :=
  wtLoopF key A A.length 0 A.length

/-! ### The linear-scan reference -/

/-- Linear-scan reference implementation: scan left to right; report the first
key-equal index as a match, otherwise stop at the first slot comparing greater and
report its index as the miss base (the array length if no slot compares greater). -/
def linearScanAux (key : α) : List α → Option Nat × Nat
  | [] => (none, 0)
  | a :: rest =>
    if key = a then (some 0, 0)
    else if key < a then (none, 0)
    else
      let r := linearScanAux key rest
      (r.1.map (· + 1), r.2 + 1)

/-- The linear-scan reference over a whole slot array. -/
def linearScan (key : α) (A : List α) : Option Nat × Nat := linearScanAux key A

/-! ### The internal-page binary search loop, lines 49-95 -/

/-- The internal-page variant of the loop (lines 49-84): identical shape, except
that index 0 is never compared (lines 74-81: when `indx == 0` the code goes straight
to `base = indx + 1; --limit`, treating the 0th key as less than any application
key).  The accumulator records every index actually passed to the comparator. -/
def wtIntLoopF (key : α) (A : List α) :
    Nat → Nat → Nat → List Nat → (Option Nat × Nat) × List Nat
  | 0, base, _, acc => ((none, base), acc)
  | fuel + 1, base, limit, acc =>
    if limit = 0 then ((none, base), acc)
    else
      let indx := base + limit / 2
      if indx = 0 then wtIntLoopF key A fuel (indx + 1) ((limit - 1) / 2) acc
      else
        let a := A.getD indx default
        if key = a then ((some indx, base), acc ++ [indx])
        else if key < a then wtIntLoopF key A fuel base (limit / 2) (acc ++ [indx])
        else wtIntLoopF key A fuel (indx + 1) ((limit - 1) / 2) (acc ++ [indx])

/-- The internal-page binary search of lines 49-84 as the source starts it, also
reporting the list of indices that were passed to the comparator. -/
def wtIntSearch (key : α) (A : List α) : (Option Nat × Nat) × List Nat :=
  wtIntLoopF key A A.length 0 A.length []

/-- The slot used for the next step down the tree (lines 86-95): the matched index
when `cmp == 0`, otherwise `base - 1`. -/
def wtIntDescentSlot (key : α) (A : List α) : Nat :=
  match (wtIntSearch key A).1 with
  | (some j, _) => j
  | (none, b) => b - 1

/-! ### Fallible variants used by the orchestrator (keys may be pending) -/

/-- Lines 133-152 with lazy key materialization: before each comparison the slot's
key is resolved (lines 141-142); a failing cell decode aborts via `WT_ERR`. -/
def wtLeafLoopF (key : α) (A : List (KeyCell α)) :
    Nat → Nat → Nat → Except ErrCode (Option Nat × Nat)
  | 0, base, _ => .ok (none, base)
  | fuel + 1, base, limit =>
    if limit = 0 then .ok (none, base)
    else
      let indx := base + limit / 2
      match resolveKey (A.getD indx default) with
      | .error e => .error e
      | .ok a =>
        if key = a then .ok (some indx, base)
        else if key < a then wtLeafLoopF key A fuel base (limit / 2)
        else wtLeafLoopF key A fuel (indx + 1) ((limit - 1) / 2)

/-- The leaf binary search (lines 133-152) over a leaf page's slot array. -/
def wtLeafSearch (key : α) (A : List (KeyCell α)) : Except ErrCode (Option Nat × Nat) :=
  wtLeafLoopF key A A.length 0 A.length

/-- Lines 49-84 with lazy key materialization: note that lines 58-60 materialize the
key at `indx` before the `indx != 0` test, so even the never-compared 0th key is
materialized (and its decode failure aborts the search). -/
def wtIntLoopEF (key : α) (refs : List (KeyCell α × RPage α)) :
    Nat → Nat → Nat → Except ErrCode (Option Nat × Nat)
  | 0, base, _ => .ok (none, base)
  | fuel + 1, base, limit =>
    if limit = 0 then .ok (none, base)
    else
      let indx := base + limit / 2
      match resolveKey (refs.getD indx default).1 with
      | .error e => .error e
      | .ok a =>
        if indx = 0 then wtIntLoopEF key refs fuel (indx + 1) ((limit - 1) / 2)
        else if key = a then .ok (some indx, base)
        else if key < a then wtIntLoopEF key refs fuel base (limit / 2)
        else wtIntLoopEF key refs fuel (indx + 1) ((limit - 1) / 2)

/-- One full descent step on an internal page: the loop of lines 49-84 followed by
the slot choice of lines 86-95. -/
def wtIntStep (key : α) (refs : List (KeyCell α × RPage α)) : Except ErrCode Nat :=
  match wtIntLoopEF key refs refs.length 0 refs.length with
  | .error e => .error e
  | .ok (some j, _) => .ok j
  | .ok (none, b) => .ok (b - 1)

/-! ### The insert-chain search, `__wt_ins_search` (lines 255-283) -/

/-- Outcome of `__wt_ins_search`: `found p` is a `cmp == 0` stop at chain position
`p`; `miss p` means the loop ended (first greater node, or chain end) having passed
`p` nodes with `cmp > 0`. -/
inductive InsOut where
  | found (pos : Nat)
  | miss (passed : Nat)
deriving DecidableEq

/-- The forward scan of lines 268-281: stop with `found` on equality, stop with
`miss` at the first node comparing greater or at the chain's end; the counter is the
number of nodes already passed (each such pass moved `srch_ins` to that node's
`next` link). -/
def wtInsSearch (key : α) : List (Ins α) → Nat → InsOut
  | [], k => .miss k
  | node :: rest, k =>
    if key = node.key then .found k
    else if key < node.key then .miss k
    else wtInsSearch key rest (k + 1)

/-- Modelled from the spec: `WT_ROW_INSERT(page, rip)` / `WT_ROW_INSERT_SMALLEST(page)`
(macros in `btree.i`): the chain at a given insert-array slot; a missing array (or a
null head) is the empty chain.  The "smallest" chain lives at index `indx_count`. -/
def chainAt (lp : LeafPage α) (slot : Nat) : List (Ins α) :=
  match lp.ins with
  | none => []
  | some arr => arr.getD slot []

/-- Splicing a new node into a chain at position `p` (in front of the node currently
at `p`): what the caller does with the returned insertion point. -/
def spliceAt (chain : List (Ins α)) (p : Nat) (node : Ins α) : List (Ins α) :=
  chain.take p ++ node :: chain.drop p

/-- The chain position in front of which a caller splicing at the returned link
inserts: the head link inserts at position 0, the `next` link of node `p` inserts at
position `p + 1`. -/
def linkSplicePos : InsLink → Nat
  | .slotHead _ => 0
  | .nodeNext p => p + 1

/-! ### The orchestrator, `__wt_row_search` -/

/-- Dereference `session->srch_upd` (`*session->srch_upd`) against the leaf page and
the scanned chain. -/
def derefUpd (lp : LeafPage α) (chain : List (Ins α)) : UpdRef → Option Upd
  | .leafUpd s => (lp.upd.getD []).getD s none
  | .insUpd p => (chain.getD p default).upd

/-- The tombstone test of lines 232-235: a located, non-null update that is deleted
(`WT_UPDATE_DELETED_ISSET`, modelled from the spec as the `deleted` flag). -/
def tombstoned (lp : LeafPage α) (chain : List (Ins α)) (s : SResult) : Bool :=
  match s.srch_upd with
  | none => false
  | some r =>
    match derefUpd lp chain r with
    | none => false
    | some u => u.deleted

/-- The `done:` label (lines 228-242): for a non-write search whose located update is
a tombstone, fall to `notfound` (which runs `WT_PAGE_OUT`, releasing the pin);
otherwise fill `srch_page`/`srch_write_gen`/`srch_match`/`srch_ip` and return 0 with
the pin retained for the caller. -/
def wtFinish (write : Bool) (lp : LeafPage α) (chain : List (Ins α)) (matched : Bool)
    (ripIdx : Option Nat) (s : SResult) : SearchDone :=
  if !write && tombstoned lp chain s then
    { ret := WT_NOTFOUND, res := s, pinHeld := false }
  else
    { ret := 0
      res := { s with
          srch_page := true
          srch_write_gen := lp.write_gen
          srch_match := matched
          srch_ip := ripIdx }
      pinHeld := true }

/-- The exact on-disk match block of lines 158-165: record the slot
(`WT_ROW_INDX_SLOT`, modelled from the spec as the index of `rip` in the slot array)
and, if the update array exists, the update location and its current value; then
`goto done` -- the insert chain is never searched on this path. -/
def leafMatchStep (_key : α) (write : Bool) (lp : LeafPage α) (indx : Nat) : SearchDone :=
  let s : SResult :=
    match lp.upd with
    | none => { srch_slot := some indx }
    | some us =>
      { srch_slot := some indx
        srch_upd := some (.leafUpd indx)
        srch_vupdate := us.getD indx none }
  wtFinish write lp [] true (some indx) s

/-- The update/insert allocation slot chosen on a miss (lines 190-196): the extra
"smallest" slot `indx_count` when `base == 0`, else the bracketing slot `base - 1`
(`WT_ROW_INDX_SLOT(page, rip)`, modelled from the spec as the index of `rip`). -/
def missSlot (lp : LeafPage α) (base : Nat) : Nat :=
  if base = 0 then lp.keys.length else base - 1

/-- The miss path of lines 167-226: point `rip` at the bracketing slot (`base - 1`
when `base != 0`, slot 0 otherwise, lines 176-178); pick the chain and the
update/insert allocation slot (lines 190-198: the extra "smallest" slot
`indx_count` when `base == 0`, else the bracketing slot); then search the chain
(lines 206-226), failing with `WT_NOTFOUND` on a chain miss without `WT_WRITE`. -/
def leafMissStep (key : α) (write : Bool) (lp : LeafPage α) (base : Nat) : SearchDone :=
  let ripIdx := base - 1
  let slot := missSlot lp base
  let chain := chainAt lp slot
  let s : SResult :=
    { srch_slot := some slot
      srch_ins := if lp.ins.isSome then some (.slotHead slot) else none }
  if chain.isEmpty then
    if write then wtFinish write lp chain false (some ripIdx) s
    else { ret := WT_NOTFOUND, res := s, pinHeld := false }
  else
    match wtInsSearch key chain 0 with
    | .found pos =>
      let s2 := { s with
          srch_ins := none
          srch_vupdate := (chain.getD pos default).upd
          srch_upd := some (.insUpd pos) }
      wtFinish write lp chain true (some ripIdx) s2
    | .miss passed =>
      let s2 := if passed = 0 then s
                else { s with srch_ins := some (.nodeNext (passed - 1)) }
      if write then wtFinish write lp chain false (some ripIdx) s2
      else { ret := WT_NOTFOUND, res := s2, pinHeld := false }

/-- The leaf phase of `__wt_row_search` (lines 104-249): leaf binary search, then the
match block or the miss/insert-chain path; a materialization error takes the `err:`
path with every session field still in its cleared state and the pin released. -/
def leafPhase (key : α) (write : Bool) (lp : LeafPage α) : SearchDone :=
  match wtLeafSearch key lp.keys with
  | .error e => { ret := e.1, res := {}, pinHeld := false }
  | .ok (some indx, _) => leafMatchStep key write lp indx
  | .ok (none, base) => leafMissStep key write lp base

/-- The descent loop of lines 47-102: while the current page is internal, binary
search its `WT_ROW_REF` array, pin the chosen child (`__wt_page_in`, whose failure
aborts via `WT_ERR`), release the parent, repeat.  Fuel bounds the depth. -/
def wtDescend (key : α) : Nat → RPage α → Except ErrCode (LeafPage α)
  | _, .pleaf lp => .ok lp
  | _, .pfail e => .error e
  | 0, .pint _ => .error FUEL_ERR
  | fuel + 1, .pint refs =>
    match wtIntStep key refs with
    | .error e => .error e
    | .ok slot =>
      match (refs.getD slot default).2 with
      | .pfail e => .error e
      | child => wtDescend key fuel child

/-- `__wt_row_search` in full: descend to the leaf, then run the leaf phase; any
descent error takes the `err:` path (cleared fields, pin released, the collaborator's
code returned verbatim). -/
def wtRowSearch (key : α) (write : Bool) (fuel : Nat) (root : RPage α) : SearchDone :=
  match wtDescend key fuel root with
  | .error e => { ret := e.1, res := {}, pinHeld := false }
  | .ok lp => leafPhase key write lp

/-! ### The key materializer, `__wt_key_build` / `__wt_key_build_serial_func` -/

/-- A `WT_ROW`/`WT_ROW_REF` key pointer: either into the page image (the on-page
`WT_CELL` of a not-yet-instantiated key) or an off-page allocated buffer
(`__wt_ref_off_page`, modelled from the spec as this variant test). -/
inductive KeyPtr where
  | cell (c : Nat)
  | buffer (b : Nat)
deriving DecidableEq

/-- The first two fields of `WT_ROW`/`WT_ROW_REF`: the `void *data / uint32_t size`
pair; `size == 0` is `__wt_key_process` (key still needs processing). -/
structure RowKey where
  ptr : KeyPtr
  size : Nat
deriving DecidableEq

/-- The slot invariant of the design: fully pending (`size == 0`) or fully resident
(`size > 0` with the pointer naming an off-page buffer). -/
def wellformedKey (k : RowKey) : Prop :=
  (k.size = 0 ∧ ∃ c, k.ptr = .cell c) ∨ (0 < k.size ∧ ∃ b, k.ptr = .buffer b)

/-- The observable states of `__wt_key_build_serial_func` (lines 359-370), in the
order the stores become visible: if the key still needs processing, first the old
state, then the state after `key->key = tmp->item.data` (the `WT_MEMORY_FLUSH`
barrier makes the pointer store visible before the size store, so this intermediate
state is observable), then the state after `key->size = tmp->item.size`; if the key
was already instantiated, nothing is written. -/
def keyBuildSerialStates (k : RowKey) (tmpPtr : KeyPtr) (tmpSize : Nat) : List RowKey :=
  if k.size = 0 then [k, ⟨tmpPtr, k.size⟩, ⟨tmpPtr, tmpSize⟩] else [k]

/-- The serial function's net effect on the slot: publish the pair iff the key still
needed processing at serial time. -/
def keyBuildSerial (k : RowKey) (tmpPtr : KeyPtr) (tmpSize : Nat) : RowKey :=
  if k.size = 0 then ⟨tmpPtr, tmpSize⟩ else k

/-- Materializer state: the slot's key pair, the fresh-buffer allocator, the live
allocated buffers (id and byte content) and the freed buffer ids. -/
structure MatState where
  slot : RowKey
  nextBuf : Nat := 0
  bufs : List (Nat × List Nat) := []
  freed : List Nat := []
deriving DecidableEq

/-- `__wt_key_build` (lines 289-335), with the slot state the serial function
observes passed explicitly (`raceSlot`): `none` means no concurrent publish happened
between the off-page check and the serial function, `some k2` is the slot as
concurrently republished (the race the source's comment block describes).  Steps:
if the pointer is already off-page, return 0 at once (lines 321-322, no allocation,
no decode, no mutation); otherwise decode the cell (`__wt_cell_process`, a failure
propagates), build a fresh buffer, run the serial publish, and free the local buffer
iff it is not the slot's stored pointer afterwards (lines 330-332). -/
def wtKeyBuildR (decode : Nat → Option (List Nat)) (raceSlot : Option RowKey)
    (s : MatState) : Option MatState :=
  match s.slot.ptr with
  | .buffer _ => some s
  | .cell c =>
    match decode c with
    | none => none
    | some bytes =>
      let b := s.nextBuf
      let atSerial := raceSlot.getD s.slot
      let slot2 := keyBuildSerial atSerial (.buffer b) bytes.length
      if slot2.ptr = .buffer b then
        some { slot := slot2
               nextBuf := b + 1
               bufs := s.bufs ++ [(b, bytes)]
               freed := s.freed }
      else
        some { slot := slot2
               nextBuf := b + 1
               bufs := s.bufs
               freed := s.freed ++ [b] }

/-- `__wt_key_build` without any concurrent publish between check and serialization. -/
def wtKeyBuild (decode : Nat → Option (List Nat)) (s : MatState) : Option MatState :=
  wtKeyBuildR decode none s

/-! ### Concrete pages used by counterexamples -/

/-- A one-slot leaf page whose only slot carries a nonempty insert chain: used to
exhibit that an exact on-disk match skips the insert-chain search. -/
def c5Page : LeafPage Nat :=
  { keys := [.resident 5], ins := some [[⟨7, none⟩], []] }

/-- A one-slot leaf page with no chains: a plain miss on it returns `WT_NOTFOUND`. -/
def c6Page : LeafPage Nat :=
  { keys := [.resident 2] }

/-- A two-child root whose descent-selected child fails to pin with code -7. -/
def c9Tree : RPage Nat :=
  .pint [(.resident 99, .pfail ⟨-7, by decide⟩), (.resident 10, .pleaf c6Page)]

/-- A leaf whose second slot's pending key fails to decode with code -9. -/
def c9Leaf : LeafPage Nat :=
  { keys := [.resident 2, .pending (.error ⟨-9, by decide⟩)] }

/-! ## Proofs -/

/-! ### Sorted-array access helpers -/

theorem getD_lt_of_sorted {A : List α} (hs : A.Pairwise (· < ·)) {i j : Nat}
    (hij : i < j) (hj : j < A.length) :
    A.getD i default < A.getD j default := by
  have hi : i < A.length := lt_trans hij hj
  rw [List.getD_eq_getElem A default hi, List.getD_eq_getElem A default hj]
  exact List.pairwise_iff_getElem.mp hs i j hi hj hij

theorem tail_sorted_getD {A : List α} (hs : (A.drop 1).Pairwise (· < ·)) {i j : Nat}
    (h1 : 1 ≤ i) (hij : i < j) (hj : j < A.length) :
    A.getD i default < A.getD j default := by
  have hlen : (A.drop 1).length = A.length - 1 := List.length_drop 1 A
  have hi : i < A.length := lt_trans hij hj
  have hi2 : i - 1 < (A.drop 1).length := by omega
  have hj2 : j - 1 < (A.drop 1).length := by omega
  have e1 : (A.drop 1).getD (i - 1) default = A.getD i default := by
    rw [List.getD_eq_getElem _ default hi2, List.getD_eq_getElem A default hi,
      List.getElem_drop]
    congr 1
    omega
  have e2 : (A.drop 1).getD (j - 1) default = A.getD j default := by
    rw [List.getD_eq_getElem _ default hj2, List.getD_eq_getElem A default hj,
      List.getElem_drop]
    congr 1
    omega
  rw [← e1, ← e2, List.getD_eq_getElem _ default hi2, List.getD_eq_getElem _ default hj2]
  exact List.pairwise_iff_getElem.mp hs (i - 1) (j - 1) hi2 hj2 (by omega)

/-! ### Outcome characterization shared by the binary search and the linear scan -/

/-- Characterization of a leaf search outcome `(matchIdx?, base)` over a slot array:
a reported match names a key-equal slot; a miss's `base` splits the array into the
slots below it, all less than the key, and the slots from it on, all greater. -/
def SearchSpec (key : α) (A : List α) (r : Option Nat × Nat) : Prop :=
  match r.1 with
  | some j => j < A.length ∧ A.getD j default = key
  | none =>
    (∀ i, i < r.2 → A.getD i default < key) ∧
    (∀ i, r.2 ≤ i → i < A.length → key < A.getD i default) ∧ r.2 ≤ A.length

theorem searchSpec_none {key : α} {A : List α} {b : Nat}
    (h1 : ∀ i, i < b → A.getD i default < key)
    (h2 : ∀ i, b ≤ i → i < A.length → key < A.getD i default)
    (h3 : b ≤ A.length) : SearchSpec key A (none, b) :=
  ⟨h1, h2, h3⟩

theorem searchSpec_none_elim {key : α} {A : List α} {b : Nat}
    (h : SearchSpec key A (none, b)) :
    (∀ i, i < b → A.getD i default < key) ∧
    (∀ i, b ≤ i → i < A.length → key < A.getD i default) ∧ b ≤ A.length :=
  h

theorem searchSpec_some_elim {key : α} {A : List α} {j b : Nat}
    (h : SearchSpec key A (some j, b)) :
    j < A.length ∧ A.getD j default = key :=
  h

theorem searchSpec_unique {key : α} {A : List α} (hs : A.Pairwise (· < ·))
    {r1 r2 : Option Nat × Nat} (h1 : SearchSpec key A r1) (h2 : SearchSpec key A r2) :
    r1.1 = r2.1 ∧ (r1.1 = none → r1.2 = r2.2) := by
  rcases r1 with ⟨m1, b1⟩
  rcases r2 with ⟨m2, b2⟩
  cases m1 with
  | some j1 =>
    obtain ⟨hj1, he1⟩ := searchSpec_some_elim h1
    cases m2 with
    | some j2 =>
      obtain ⟨hj2, he2⟩ := searchSpec_some_elim h2
      have hj : j1 = j2 := by
        rcases Nat.lt_trichotomy j1 j2 with h | h | h
        · have hx := getD_lt_of_sorted hs h hj2
          rw [he1, he2] at hx
          exact absurd hx (lt_irrefl key)
        · exact h
        · have hx := getD_lt_of_sorted hs h hj1
          rw [he1, he2] at hx
          exact absurd hx (lt_irrefl key)
      exact ⟨by rw [hj], fun h => by cases h⟩
    | none =>
      obtain ⟨hlo, hhi, _⟩ := searchSpec_none_elim h2
      rcases Nat.lt_or_ge j1 b2 with h | h
      · have hx := hlo j1 h
        rw [he1] at hx
        exact absurd hx (lt_irrefl key)
      · have hx := hhi j1 h hj1
        rw [he1] at hx
        exact absurd hx (lt_irrefl key)
  | none =>
    obtain ⟨hlo, hhi, hb⟩ := searchSpec_none_elim h1
    cases m2 with
    | some j2 =>
      obtain ⟨hj2, he2⟩ := searchSpec_some_elim h2
      rcases Nat.lt_or_ge j2 b1 with h | h
      · have hx := hlo j2 h
        rw [he2] at hx
        exact absurd hx (lt_irrefl key)
      · have hx := hhi j2 h hj2
        rw [he2] at hx
        exact absurd hx (lt_irrefl key)
    | none =>
      obtain ⟨hlo2, hhi2, hb2⟩ := searchSpec_none_elim h2
      refine ⟨rfl, fun _ => ?_⟩
      rcases Nat.lt_trichotomy b1 b2 with h | h | h
      · exact absurd (lt_trans (hhi b1 le_rfl (by omega)) (hlo2 b1 h)) (lt_irrefl key)
      · exact h
      · exact absurd (lt_trans (hhi2 b2 le_rfl (by omega)) (hlo b2 h)) (lt_irrefl key)

/-! ### The leaf binary search satisfies the characterization -/

theorem wtLoopF_spec (key : α) (A : List α) (hs : A.Pairwise (· < ·)) :
    ∀ (fuel base limit : Nat), limit ≤ fuel → base + limit ≤ A.length →
      (∀ i, i < base → A.getD i default < key) →
      (∀ i, base + limit ≤ i → i < A.length → key < A.getD i default) →
      SearchSpec key A (wtLoopF key A fuel base limit) := by
  intro fuel
  induction fuel with
  | zero =>
    intro base limit hf hn hlo hhi
    have hl : limit = 0 := Nat.le_zero.mp hf
    subst hl
    show SearchSpec key A (none, base)
    exact searchSpec_none hlo (fun i h1 h2 => hhi i (by omega) h2) (by omega)
  | succ fuel ih =>
    intro base limit hf hn hlo hhi
    have hstep : wtLoopF key A (fuel + 1) base limit =
        if limit = 0 then (none, base)
        else if key = A.getD (base + limit / 2) default then (some (base + limit / 2), base)
        else if key < A.getD (base + limit / 2) default then wtLoopF key A fuel base (limit / 2)
        else wtLoopF key A fuel (base + limit / 2 + 1) ((limit - 1) / 2) := rfl
    by_cases hl : limit = 0
    · subst hl
      rw [hstep, if_pos rfl]
      exact searchSpec_none hlo (fun i h1 h2 => hhi i (by omega) h2) (by omega)
    · rw [hstep, if_neg hl]
      by_cases heq : key = A.getD (base + limit / 2) default
      · rw [if_pos heq]
        show SearchSpec key A (some (base + limit / 2), base)
        exact ⟨by omega, heq.symm⟩
      · rw [if_neg heq]
        by_cases hlt : key < A.getD (base + limit / 2) default
        · rw [if_pos hlt]
          refine ih base (limit / 2) (by omega) (by omega) hlo ?_
          intro i h1 h2
          rcases Nat.lt_or_ge i (base + limit) with hcase | hcase
          · rcases Nat.eq_or_lt_of_le h1 with heq2 | hgt2
            · rw [← heq2]
              exact hlt
            · exact lt_trans hlt (getD_lt_of_sorted hs hgt2 h2)
          · exact hhi i hcase h2
        · rw [if_neg hlt]
          have hgt : A.getD (base + limit / 2) default < key := by
            rcases lt_trichotomy key (A.getD (base + limit / 2) default) with h | h | h
            · exact absurd h hlt
            · exact absurd h heq
            · exact h
          refine ih (base + limit / 2 + 1) ((limit - 1) / 2) (by omega) (by omega) ?_ ?_
          · intro i hi
            rcases Nat.lt_or_ge i base with hib | hib
            · exact hlo i hib
            · rcases Nat.lt_or_ge i (base + limit / 2) with hii | hii
              · exact lt_trans (getD_lt_of_sorted hs hii (by omega)) hgt
              · have hieq : i = base + limit / 2 := by omega
                rw [hieq]
                exact hgt
          · intro i h1 h2
            exact hhi i (by omega) h2

/-! ### The linear scan satisfies the same characterization -/

theorem linearScanAux_spec (key : α) :
    ∀ (A : List α), A.Pairwise (· < ·) → SearchSpec key A (linearScanAux key A) := by
  intro A
  induction A with
  | nil =>
    intro _
    show SearchSpec key ([] : List α) (none, 0)
    exact searchSpec_none (fun i h => absurd h (Nat.not_lt_zero i))
      (fun i _ h2 => absurd h2 (Nat.not_lt_zero i)) le_rfl
  | cons a rest ih =>
    intro hsc
    obtain ⟨hhead, hsr⟩ := List.pairwise_cons.mp hsc
    have hstep : linearScanAux key (a :: rest) =
        if key = a then (some 0, 0)
        else if key < a then (none, 0)
        else ((linearScanAux key rest).1.map (· + 1), (linearScanAux key rest).2 + 1) := rfl
    rw [hstep]
    by_cases heq : key = a
    · rw [if_pos heq]
      show SearchSpec key (a :: rest) (some 0, 0)
      exact ⟨by simp, by simp [heq]⟩
    · rw [if_neg heq]
      by_cases hlt : key < a
      · rw [if_pos hlt]
        show SearchSpec key (a :: rest) (none, 0)
        refine searchSpec_none (fun i h => absurd h (Nat.not_lt_zero i)) ?_ (by omega)
        intro i _ h2
        cases i with
        | zero => simpa using hlt
        | succ i2 =>
          rw [List.getD_cons_succ]
          have hi2 : i2 < rest.length := by simp at h2; omega
          have hmem : rest.getD i2 default ∈ rest := by
            rw [List.getD_eq_getElem rest default hi2]
            exact List.getElem_mem hi2
          exact lt_trans hlt (hhead _ hmem)
      · rw [if_neg hlt]
        have hgt : a < key := by
          rcases lt_trichotomy key a with h | h | h
          · exact absurd h hlt
          · exact absurd h heq
          · exact h
        have ihh := ih hsr
        rcases hr : linearScanAux key rest with ⟨m, b⟩
        rw [hr] at ihh
        cases m with
        | some j =>
          obtain ⟨hj, he⟩ := searchSpec_some_elim ihh
          show SearchSpec key (a :: rest) (some (j + 1), b + 1)
          refine ⟨by simp; omega, ?_⟩
          rw [List.getD_cons_succ]
          exact he
        | none =>
          obtain ⟨hlo, hhi, hb⟩ := searchSpec_none_elim ihh
          show SearchSpec key (a :: rest) (none, b + 1)
          refine searchSpec_none ?_ ?_ (by simp; omega)
          · intro i hi
            cases i with
            | zero => simpa using hgt
            | succ i2 =>
              rw [List.getD_cons_succ]
              exact hlo i2 (by omega)
          · intro i h1 h2
            cases i with
            | zero => omega
            | succ i2 =>
              rw [List.getD_cons_succ]
              exact hhi i2 (by omega) (by simp at h2; omega)

/-! ### A fully resident slot array behaves as the pure loop -/

omit [LinearOrder α] in
theorem getD_map_resident (A : List α) (i : Nat) :
    (A.map (KeyCell.resident)).getD i default = .resident (A.getD i default) := by
  rcases Nat.lt_or_ge i A.length with h | h
  · rw [List.getD_eq_getElem (A.map KeyCell.resident) default (by simp [h]),
      List.getD_eq_getElem A default h, List.getElem_map]
  · rw [List.getD_eq_default (A.map KeyCell.resident) default (by simp [h]),
      List.getD_eq_default A default h]
    rfl

theorem wtLeafLoopF_resident (key : α) (A : List α) :
    ∀ (fuel base limit : Nat),
      wtLeafLoopF key (A.map .resident) fuel base limit = .ok (wtLoopF key A fuel base limit) := by
  intro fuel
  induction fuel with
  | zero => intro base limit; rfl
  | succ fuel ih =>
    intro base limit
    have hstepL : wtLeafLoopF key (A.map .resident) (fuel + 1) base limit =
        if limit = 0 then .ok (none, base)
        else
          match resolveKey ((A.map KeyCell.resident).getD (base + limit / 2) default) with
          | .error e => .error e
          | .ok a =>
            if key = a then .ok (some (base + limit / 2), base)
            else if key < a then wtLeafLoopF key (A.map .resident) fuel base (limit / 2)
            else wtLeafLoopF key (A.map .resident) fuel (base + limit / 2 + 1) ((limit - 1) / 2) := rfl
    have hstepP : wtLoopF key A (fuel + 1) base limit =
        if limit = 0 then (none, base)
        else if key = A.getD (base + limit / 2) default then (some (base + limit / 2), base)
        else if key < A.getD (base + limit / 2) default then wtLoopF key A fuel base (limit / 2)
        else wtLoopF key A fuel (base + limit / 2 + 1) ((limit - 1) / 2) := rfl
    rw [hstepL, hstepP, getD_map_resident]
    by_cases hl : limit = 0
    · rw [if_pos hl, if_pos hl]
    · rw [if_neg hl, if_neg hl]
      show (match resolveKey (KeyCell.resident (A.getD (base + limit / 2) default)) with
          | .error e => Except.error e
          | .ok a =>
            if key = a then Except.ok (some (base + limit / 2), base)
            else if key < a then wtLeafLoopF key (A.map .resident) fuel base (limit / 2)
            else wtLeafLoopF key (A.map .resident) fuel (base + limit / 2 + 1) ((limit - 1) / 2)) = _
      by_cases heq : key = A.getD (base + limit / 2) default
      · simp only [resolveKey, if_pos heq]
      · simp only [resolveKey, if_neg heq]
        by_cases hlt : key < A.getD (base + limit / 2) default
        · rw [if_pos hlt, if_pos hlt, ih]
        · rw [if_neg hlt, if_neg hlt, ih]

/-! ### C1 -/

/-- C1: for every leaf page whose on-disk slot array is sorted by the comparator and
every target key, the leaf binary search (lines 133-152, run by `wtLeafSearch` on the
page's slots and computed by `wtBinSearch` when every key is resident) returns the
same outcome as the linear-scan reference: the same match/miss disposition with the
same matching slot index on a match, and on a miss the same `base`, which is the
smallest index whose key is greater than the target (possibly the array length),
with the bracketing slot `base - 1` holding a key smaller than the target whenever
`base` is nonzero. -/
theorem c1_leaf_binary_search_matches_linear_scan (key : α) (A : List α)
    (hs : A.Pairwise (· < ·)) :
    wtLeafSearch key (A.map .resident) = .ok (wtBinSearch key A) ∧
    (wtBinSearch key A).1 = (linearScan key A).1 ∧
    ((wtBinSearch key A).1 = none →
      (wtBinSearch key A).2 = (linearScan key A).2 ∧
      (wtBinSearch key A).2 ≤ A.length ∧
      (∀ i, i < A.length → (key < A.getD i default ↔ (wtBinSearch key A).2 ≤ i)) ∧
      ((wtBinSearch key A).2 ≠ 0 → A.getD ((wtBinSearch key A).2 - 1) default < key)) := by
  have hwt : SearchSpec key A (wtBinSearch key A) :=
    wtLoopF_spec key A hs A.length 0 A.length le_rfl (by omega)
      (fun i h => absurd h (Nat.not_lt_zero i)) (fun i h1 h2 => absurd h1 (by omega))
  have hlin : SearchSpec key A (linearScan key A) := linearScanAux_spec key A hs
  have huniq := searchSpec_unique hs hwt hlin
  refine ⟨?_, huniq.1, fun hnone => ?_⟩
  · show wtLeafLoopF key (A.map .resident) (A.map KeyCell.resident).length 0
        (A.map KeyCell.resident).length = _
    rw [List.length_map, wtLeafLoopF_resident]
    rfl
  · rcases hr : wtBinSearch key A with ⟨m, b⟩
    rw [hr] at hwt hnone huniq
    have hm : m = none := hnone
    subst hm
    obtain ⟨h1, h2, h3⟩ := searchSpec_none_elim hwt
    refine ⟨huniq.2 rfl, h3, ?_, ?_⟩
    · intro i hi
      constructor
      · intro hki
        by_contra hib
        exact absurd (lt_trans (h1 i (by omega)) hki) (lt_irrefl _)
      · intro hbi
        exact h2 i hbi hi
    · intro hb0
      exact h1 (b - 1) (by omega)

/-- Witness for C1 at a concrete sorted page and key (a miss between two slots). -/
theorem c1_leaf_binary_search_matches_linear_scan_witness :
    ([2, 4, 6, 8] : List Nat).Pairwise (· < ·) ∧
    (wtBinSearch (5 : Nat) [2, 4, 6, 8]).1 = (linearScan (5 : Nat) [2, 4, 6, 8]).1 :=
  ⟨by decide, (c1_leaf_binary_search_matches_linear_scan (5 : Nat) [2, 4, 6, 8] (by decide)).2.1⟩

/-! ### The internal-page loop: invariant and comparator instrumentation -/

theorem wtIntLoopF_spec (key : α) (A : List α)
    (hs : (A.drop 1).Pairwise (· < ·)) :
    ∀ (fuel base limit : Nat) (acc : List Nat), limit ≤ fuel → base + limit ≤ A.length →
      (base = 0 → 1 ≤ limit) →
      (∀ i, 1 ≤ i → i < base → A.getD i default < key) →
      (∀ i, base + limit ≤ i → i < A.length → key < A.getD i default) →
      (∀ j b2, (wtIntLoopF key A fuel base limit acc).1 = (some j, b2) →
        1 ≤ j ∧ j < A.length ∧ A.getD j default = key) ∧
      (∀ b2, (wtIntLoopF key A fuel base limit acc).1 = (none, b2) →
        1 ≤ b2 ∧ b2 ≤ A.length ∧
        (∀ i, 1 ≤ i → i < b2 → A.getD i default < key) ∧
        (∀ i, b2 ≤ i → i < A.length → key < A.getD i default)) := by
  intro fuel
  induction fuel with
  | zero =>
    intro base limit acc hf hn hb hlo hhi
    have hl : limit = 0 := Nat.le_zero.mp hf
    subst hl
    constructor
    · intro j b2 h
      have h2 : ((none : Option Nat), base) = (some j, b2) := h
      injection h2 with h3 h4
      exact absurd h3 (by simp)
    · intro b2 h
      have h2 : ((none : Option Nat), base) = (none, b2) := h
      injection h2 with h3 h4
      subst h4
      exact ⟨by omega, by omega, fun i h1 h2 => hlo i h1 h2,
        fun i h1 h2 => hhi i (by omega) h2⟩
  | succ fuel ih =>
    intro base limit acc hf hn hb hlo hhi
    have hstep : wtIntLoopF key A (fuel + 1) base limit acc =
        if limit = 0 then ((none, base), acc)
        else if base + limit / 2 = 0 then
          wtIntLoopF key A fuel (base + limit / 2 + 1) ((limit - 1) / 2) acc
        else if key = A.getD (base + limit / 2) default then
          ((some (base + limit / 2), base), acc ++ [base + limit / 2])
        else if key < A.getD (base + limit / 2) default then
          wtIntLoopF key A fuel base (limit / 2) (acc ++ [base + limit / 2])
        else
          wtIntLoopF key A fuel (base + limit / 2 + 1) ((limit - 1) / 2)
            (acc ++ [base + limit / 2]) := rfl
    rw [hstep]
    by_cases hl : limit = 0
    · rw [if_pos hl]
      constructor
      · intro j b2 h
        have h2 : ((none : Option Nat), base) = (some j, b2) := h
        injection h2 with h3 h4
        exact absurd h3 (by simp)
      · intro b2 h
        have h2 : ((none : Option Nat), base) = (none, b2) := h
        injection h2 with h3 h4
        subst h4
        exact ⟨by omega, by omega, fun i h1 h2 => hlo i h1 h2,
          fun i h1 h2 => hhi i (by omega) h2⟩
    · rw [if_neg hl]
      by_cases hz : base + limit / 2 = 0
      · rw [if_pos hz]
        exact ih (base + limit / 2 + 1) ((limit - 1) / 2) acc (by omega) (by omega)
          (fun h => absurd h (by omega))
          (fun i h1 h2 => absurd h1 (by omega))
          (fun i h1 h2 => hhi i (by omega) h2)
      · rw [if_neg hz]
        by_cases heq : key = A.getD (base + limit / 2) default
        · rw [if_pos heq]
          constructor
          · intro j b2 h
            have h2 : ((some (base + limit / 2) : Option Nat), base) = (some j, b2) := h
            injection h2 with h3 h4
            injection h3 with h5
            subst h5
            exact ⟨by omega, by omega, heq.symm⟩
          · intro b2 h
            have h2 : ((some (base + limit / 2) : Option Nat), base) = (none, b2) := h
            injection h2 with h3 h4
            exact absurd h3 (by simp)
        · rw [if_neg heq]
          by_cases hlt : key < A.getD (base + limit / 2) default
          · rw [if_pos hlt]
            refine ih base (limit / 2) (acc ++ [base + limit / 2]) (by omega) (by omega)
              (fun h => by omega) hlo ?_
            intro i h1 h2
            rcases Nat.lt_or_ge i (base + limit) with hcase | hcase
            · rcases Nat.eq_or_lt_of_le h1 with heq2 | hgt2
              · rw [← heq2]
                exact hlt
              · exact lt_trans hlt (tail_sorted_getD hs (by omega) hgt2 h2)
            · exact hhi i hcase h2
          · rw [if_neg hlt]
            have hgt : A.getD (base + limit / 2) default < key := by
              rcases lt_trichotomy key (A.getD (base + limit / 2) default) with h | h | h
              · exact absurd h hlt
              · exact absurd h heq
              · exact h
            refine ih (base + limit / 2 + 1) ((limit - 1) / 2) (acc ++ [base + limit / 2])
              (by omega) (by omega) (fun h => absurd h (by omega)) ?_
              (fun i h1 h2 => hhi i (by omega) h2)
            intro i hi1 hi2
            rcases Nat.lt_or_ge i base with hib | hib
            · exact hlo i hi1 hib
            · rcases Nat.lt_or_ge i (base + limit / 2) with hii | hii
              · exact lt_trans (tail_sorted_getD hs hi1 hii (by omega)) hgt
              · have hieq : i = base + limit / 2 := by omega
                rw [hieq]
                exact hgt

theorem wtIntLoopF_acc (key : α) (A : List α) :
    ∀ (fuel base limit : Nat) (acc : List Nat),
      0 ∉ acc → 0 ∉ (wtIntLoopF key A fuel base limit acc).2 := by
  intro fuel
  induction fuel with
  | zero =>
    intro base limit acc h
    exact h
  | succ fuel ih =>
    intro base limit acc hacc
    have hstep : wtIntLoopF key A (fuel + 1) base limit acc =
        if limit = 0 then ((none, base), acc)
        else if base + limit / 2 = 0 then
          wtIntLoopF key A fuel (base + limit / 2 + 1) ((limit - 1) / 2) acc
        else if key = A.getD (base + limit / 2) default then
          ((some (base + limit / 2), base), acc ++ [base + limit / 2])
        else if key < A.getD (base + limit / 2) default then
          wtIntLoopF key A fuel base (limit / 2) (acc ++ [base + limit / 2])
        else
          wtIntLoopF key A fuel (base + limit / 2 + 1) ((limit - 1) / 2)
            (acc ++ [base + limit / 2]) := rfl
    rw [hstep]
    by_cases hl : limit = 0
    · rw [if_pos hl]
      exact hacc
    · rw [if_neg hl]
      by_cases hz : base + limit / 2 = 0
      · rw [if_pos hz]
        exact ih _ _ _ hacc
      · rw [if_neg hz]
        have hne : 0 ∉ acc ++ [base + limit / 2] := by
          intro hmem
          rcases List.mem_append.mp hmem with h | h
          · exact hacc h
          · rw [List.mem_singleton] at h
            omega
        by_cases heq : key = A.getD (base + limit / 2) default
        · rw [if_pos heq]
          exact hne
        · rw [if_neg heq]
          by_cases hlt : key < A.getD (base + limit / 2) default
          · rw [if_pos hlt]
            exact ih _ _ _ hne
          · rw [if_neg hlt]
            exact ih _ _ _ hne

/-! ### C2 -/

/-- C2: for every internal page (a nonempty `WT_ROW_REF` array whose keys from index
1 on are sorted) and every search key, the descent step never passes index 0 to the
comparator (the instrumented loop's comparison list excludes 0: index 0 is treated
as sorting below any application key), and the chosen descent slot `s` is exactly
`base - 1` for `base` the smallest index whose key is greater than the target (array
length if none): `s` is in range and a key at index `i ≥ 1` is greater than the
target precisely when `s < i` -- covering an exact match on an internal key (the
matched slot is used) and a key smaller than every real key, which yields slot 0. -/
theorem c2_internal_descent (key : α) (A : List α)
    (hne : 0 < A.length) (hs : (A.drop 1).Pairwise (· < ·)) :
    0 ∉ (wtIntSearch key A).2 ∧
    wtIntDescentSlot key A < A.length ∧
    (∀ i, i < A.length → 1 ≤ i →
      (key < A.getD i default ↔ wtIntDescentSlot key A < i)) ∧
    ((∀ i, i < A.length → 1 ≤ i → key < A.getD i default) → wtIntDescentSlot key A = 0) := by
  have hacc : 0 ∉ (wtIntSearch key A).2 :=
    wtIntLoopF_acc key A A.length 0 A.length [] (by simp)
  have hspec := wtIntLoopF_spec key A hs A.length 0 A.length [] le_rfl (by omega)
    (fun _ => hne) (fun i h1 h2 => absurd h2 (by omega)) (fun i h1 h2 => absurd h1 (by omega))
  rcases hr : (wtIntSearch key A).1 with ⟨m, b⟩
  cases m with
  | some j =>
    obtain ⟨hj1, hj2, hj3⟩ := hspec.1 j b hr
    have hslot : wtIntDescentSlot key A = j := by
      unfold wtIntDescentSlot
      rw [hr]
    have hiff : ∀ i, i < A.length → 1 ≤ i →
        (key < A.getD i default ↔ wtIntDescentSlot key A < i) := by
      intro i hiA hi1
      rw [hslot]
      constructor
      · intro hki
        by_contra hij
        push_neg at hij
        rcases Nat.eq_or_lt_of_le hij with heq2 | hlt2
        · rw [heq2, hj3] at hki
          exact lt_irrefl key hki
        · have hx := tail_sorted_getD hs hi1 hlt2 hj2
          rw [hj3] at hx
          exact lt_irrefl key (lt_trans hki hx)
      · intro hji
        have hx := tail_sorted_getD hs hj1 hji hiA
        rw [hj3] at hx
        exact hx
    refine ⟨hacc, by omega, hiff, ?_⟩
    intro hall
    by_contra h0
    have h1 : 1 ≤ wtIntDescentSlot key A := by omega
    have h2 : wtIntDescentSlot key A < A.length := by omega
    exact absurd ((hiff _ h2 h1).mp (hall _ h2 h1)) (lt_irrefl _)
  | none =>
    obtain ⟨hb1, hb2, hlo, hhi⟩ := hspec.2 b hr
    have hslot : wtIntDescentSlot key A = b - 1 := by
      unfold wtIntDescentSlot
      rw [hr]
    have hiff : ∀ i, i < A.length → 1 ≤ i →
        (key < A.getD i default ↔ wtIntDescentSlot key A < i) := by
      intro i hiA hi1
      rw [hslot]
      constructor
      · intro hki
        by_contra hbi
        push_neg at hbi
        have hx := hlo i hi1 (by omega)
        exact lt_irrefl key (lt_trans hki hx)
      · intro hbi
        exact hhi i (by omega) hiA
    refine ⟨hacc, by omega, hiff, ?_⟩
    intro hall
    by_contra h0
    have h1 : 1 ≤ wtIntDescentSlot key A := by omega
    have h2 : wtIntDescentSlot key A < A.length := by omega
    exact absurd ((hiff _ h2 h1).mp (hall _ h2 h1)) (lt_irrefl _)

/-- Witness for C2 at a concrete internal page (index 0 key deliberately out of
order) and a key smaller than every real key: the descent selects child slot 0. -/
theorem c2_internal_descent_witness :
    0 < ([100, 20, 30] : List Nat).length ∧
    wtIntDescentSlot (1 : Nat) [100, 20, 30] = 0 :=
  ⟨by decide,
    (c2_internal_descent (1 : Nat) [100, 20, 30] (by decide) (by decide)).2.2.2 (by decide)⟩

/-! ### The insert-chain scan: shift and characterization -/

/-- Adding `k` to the position reported by the chain scan. -/
def insOutShift (k : Nat) : InsOut → InsOut
  | .found p => .found (p + k)
  | .miss p => .miss (p + k)

omit [Inhabited α] in
theorem wtInsSearch_shift (key : α) :
    ∀ (chain : List (Ins α)) (k : Nat),
      wtInsSearch key chain k = insOutShift k (wtInsSearch key chain 0) := by
  intro chain
  induction chain with
  | nil =>
    intro k
    show InsOut.miss k = insOutShift k (.miss 0)
    simp [insOutShift]
  | cons node rest ih =>
    intro k
    have hstep : ∀ (m : Nat), wtInsSearch key (node :: rest) m =
        if key = node.key then .found m
        else if key < node.key then .miss m
        else wtInsSearch key rest (m + 1) := fun m => rfl
    rw [hstep k, hstep 0]
    by_cases h1 : key = node.key
    · rw [if_pos h1, if_pos h1]
      simp [insOutShift]
    · rw [if_neg h1, if_neg h1]
      by_cases h2 : key < node.key
      · rw [if_pos h2, if_pos h2]
        simp [insOutShift]
      · rw [if_neg h2, if_neg h2, ih (k + 1), ih 1]
        cases wtInsSearch key rest 0 with
        | found p => simp [insOutShift]; omega
        | miss p => simp [insOutShift]; omega

theorem wtInsSearch_spec (key : α) :
    ∀ (chain : List (Ins α)), chain.Pairwise (fun x y => x.key < y.key) →
      (∀ p, wtInsSearch key chain 0 = .found p →
        p < chain.length ∧ (chain.getD p default).key = key ∧
        (∀ i, i < p → (chain.getD i default).key < key)) ∧
      (∀ p, wtInsSearch key chain 0 = .miss p →
        p ≤ chain.length ∧
        (∀ i, i < p → (chain.getD i default).key < key) ∧
        (∀ i, p ≤ i → i < chain.length → key < (chain.getD i default).key)) := by
  intro chain
  induction chain with
  | nil =>
    intro _
    constructor
    · intro p h
      have h2 : InsOut.miss 0 = .found p := h
      injection h2
    · intro p h
      have h2 : InsOut.miss 0 = .miss p := h
      injection h2 with h3
      subst h3
      exact ⟨by omega, fun i h1 => absurd h1 (Nat.not_lt_zero i),
        fun i h1 h2 => absurd h2 (Nat.not_lt_zero i)⟩
  | cons node rest ih =>
    intro hsc
    obtain ⟨hhead, hsr⟩ := List.pairwise_cons.mp hsc
    obtain ⟨ihf, ihm⟩ := ih hsr
    have hstep : wtInsSearch key (node :: rest) 0 =
        if key = node.key then .found 0
        else if key < node.key then .miss 0
        else wtInsSearch key rest 1 := rfl
    by_cases h1 : key = node.key
    · rw [hstep, if_pos h1]
      constructor
      · intro p h
        injection h with h2
        subst h2
        exact ⟨by simp, by simp [h1], fun i hi => absurd hi (Nat.not_lt_zero i)⟩
      · intro p h
        injection h
    · rw [hstep, if_neg h1]
      by_cases h2 : key < node.key
      · rw [if_pos h2]
        constructor
        · intro p h
          injection h
        · intro p h
          injection h with h3
          subst h3
          refine ⟨by omega, fun i hi => absurd hi (Nat.not_lt_zero i), ?_⟩
          intro i _ hilen
          cases i with
          | zero => simpa using h2
          | succ i2 =>
            rw [List.getD_cons_succ]
            have hi2 : i2 < rest.length := by simp at hilen; omega
            have hmem : rest.getD i2 default ∈ rest := by
              rw [List.getD_eq_getElem rest default hi2]
              exact List.getElem_mem hi2
            exact lt_trans h2 (hhead _ hmem)
      · rw [if_neg h2]
        have hgt : node.key < key := by
          rcases lt_trichotomy key node.key with h | h | h
          · exact absurd h h2
          · exact absurd h h1
          · exact h
        rw [wtInsSearch_shift key rest 1]
        cases hr : wtInsSearch key rest 0 with
        | found q =>
          obtain ⟨hq1, hq2, hq3⟩ := ihf q hr
          constructor
          · intro p h
            have h3 : InsOut.found (q + 1) = .found p := h
            injection h3 with h4
            subst h4
            refine ⟨by simp; omega, by rw [List.getD_cons_succ]; exact hq2, ?_⟩
            intro i hi
            cases i with
            | zero => simpa using hgt
            | succ i2 =>
              rw [List.getD_cons_succ]
              exact hq3 i2 (by omega)
          · intro p h
            have h3 : InsOut.found (q + 1) = .miss p := h
            injection h3
        | miss q =>
          obtain ⟨hq1, hq2, hq3⟩ := ihm q hr
          constructor
          · intro p h
            have h3 : InsOut.miss (q + 1) = .found p := h
            injection h3
          · intro p h
            have h3 : InsOut.miss (q + 1) = .miss p := h
            injection h3 with h4
            subst h4
            refine ⟨by simp; omega, ?_, ?_⟩
            · intro i hi
              cases i with
              | zero => simpa using hgt
              | succ i2 =>
                rw [List.getD_cons_succ]
                exact hq2 i2 (by omega)
            · intro i hi hilen
              cases i with
              | zero => omega
              | succ i2 =>
                rw [List.getD_cons_succ]
                exact hq3 i2 (by omega) (by simp at hilen; omega)

/-- Splicing a key-equal node at the reported insertion position keeps the chain
sorted: the nodes before the position are smaller, those after are greater. -/
theorem spliceAt_sorted {chain : List (Ins α)} {p : Nat} {node : Ins α}
    (hp : p ≤ chain.length)
    (hlt : ∀ i, i < p → (chain.getD i default).key < node.key)
    (hgt : ∀ i, p ≤ i → i < chain.length → node.key < (chain.getD i default).key)
    (hsc : chain.Pairwise (fun x y => x.key < y.key)) :
    (spliceAt chain p node).Pairwise (fun x y => x.key < y.key) := by
  unfold spliceAt
  rw [List.pairwise_append]
  refine ⟨hsc.sublist (List.take_sublist p chain), ?_, ?_⟩
  · rw [List.pairwise_cons]
    refine ⟨?_, hsc.sublist (List.drop_sublist p chain)⟩
    intro b hb
    obtain ⟨i, hi, rfl⟩ := List.mem_iff_getElem.mp hb
    have hi2 : p + i < chain.length := by simp at hi; omega
    rw [List.getElem_drop]
    have hx := hgt (p + i) (by omega) hi2
    rwa [List.getD_eq_getElem chain default hi2] at hx
  · intro a ha b hb
    obtain ⟨i, hi, rfl⟩ := List.mem_iff_getElem.mp ha
    have hip : i < p := by simp at hi; omega
    have hia : i < chain.length := by omega
    have hx := hlt i hip
    rw [List.getD_eq_getElem chain default hia] at hx
    rw [List.getElem_take]
    rcases List.mem_cons.mp hb with rfl | hb2
    · exact hx
    · obtain ⟨j, hj, rfl⟩ := List.mem_iff_getElem.mp hb2
      have hj2 : p + j < chain.length := by simp at hj; omega
      rw [List.getElem_drop]
      have hy := hgt (p + j) (by omega) hj2
      rw [List.getD_eq_getElem chain default hj2] at hy
      exact lt_trans hx hy

/-! ### Unfolding helpers for the orchestrator -/

omit [LinearOrder α] [Inhabited α] in
theorem isEmpty_eq_false_of_ne_nil {l : List (Ins α)} (h : l ≠ []) : l.isEmpty = false := by
  cases l with
  | nil => exact absurd rfl h
  | cons a t => rfl

omit [Inhabited α] in
theorem isEmpty_false_of_found {key : α} {chain : List (Ins α)} {p : Nat}
    (h : wtInsSearch key chain 0 = .found p) : chain.isEmpty = false := by
  cases chain with
  | nil =>
    have h2 : InsOut.miss 0 = .found p := h
    injection h2
  | cons a t => rfl

omit [LinearOrder α] in
theorem wtFinish_fields (write : Bool) (lp : LeafPage α) (chain : List (Ins α))
    (matched : Bool) (ripIdx : Option Nat) (s : SResult) :
    (wtFinish write lp chain matched ripIdx s).res.srch_upd = s.srch_upd ∧
    (wtFinish write lp chain matched ripIdx s).res.srch_vupdate = s.srch_vupdate ∧
    (wtFinish write lp chain matched ripIdx s).res.srch_ins = s.srch_ins ∧
    (wtFinish write lp chain matched ripIdx s).res.srch_slot = s.srch_slot := by
  unfold wtFinish
  split
  · exact ⟨rfl, rfl, rfl, rfl⟩
  · exact ⟨rfl, rfl, rfl, rfl⟩

omit [LinearOrder α] in
theorem wtFinish_write_true (lp : LeafPage α) (chain : List (Ins α))
    (matched : Bool) (ripIdx : Option Nat) (s : SResult) :
    wtFinish true lp chain matched ripIdx s =
      { ret := 0
        res := { s with
            srch_page := true
            srch_write_gen := lp.write_gen
            srch_match := matched
            srch_ip := ripIdx }
        pinHeld := true } := by
  unfold wtFinish
  simp

theorem leafPhase_miss_eq (key : α) (write : Bool) (lp : LeafPage α) (base : Nat)
    (hloop : wtLeafSearch key lp.keys = .ok (none, base)) :
    leafPhase key write lp = leafMissStep key write lp base := by
  unfold leafPhase
  rw [hloop]

theorem leafPhase_match_eq (key : α) (write : Bool) (lp : LeafPage α) (indx b : Nat)
    (hloop : wtLeafSearch key lp.keys = .ok (some indx, b)) :
    leafPhase key write lp = leafMatchStep key write lp indx := by
  unfold leafPhase
  rw [hloop]

theorem leafMissStep_slot (key : α) (write : Bool) (lp : LeafPage α) (base : Nat) :
    (leafMissStep key write lp base).res.srch_slot = some (missSlot lp base) := by
  simp only [leafMissStep, wtFinish]
  repeat' split
  all_goals rfl

theorem leafMissStep_found_fields (key : α) (write : Bool) (lp : LeafPage α) (base p : Nat)
    (hf : wtInsSearch key (chainAt lp (missSlot lp base)) 0 = .found p) :
    (leafMissStep key write lp base).res.srch_upd = some (.insUpd p) ∧
    (leafMissStep key write lp base).res.srch_vupdate =
      ((chainAt lp (missSlot lp base)).getD p default).upd ∧
    (leafMissStep key write lp base).res.srch_ins = none := by
  have hne := isEmpty_false_of_found hf
  simp only [leafMissStep, hne, hf, Bool.false_eq_true, if_false]
  unfold wtFinish
  split
  · exact ⟨rfl, rfl, rfl⟩
  · exact ⟨rfl, rfl, rfl⟩

theorem leafMissStep_miss_fields (key : α) (write : Bool) (lp : LeafPage α) (base p : Nat)
    (hsome : lp.ins.isSome = true)
    (hm : wtInsSearch key (chainAt lp (missSlot lp base)) 0 = .miss p) :
    (leafMissStep key write lp base).res.srch_ins =
      (if p = 0 then some (.slotHead (missSlot lp base)) else some (.nodeNext (p - 1))) := by
  by_cases hemp : chainAt lp (missSlot lp base) = []
  · have hp0 : p = 0 := by
      rw [hemp] at hm
      have h2 : InsOut.miss 0 = .miss p := hm
      injection h2 with h3
      omega
    subst hp0
    simp only [leafMissStep, hemp, List.isEmpty_nil, if_true, hsome, wtFinish]
    repeat' split
    all_goals rfl
  · have hne := isEmpty_eq_false_of_ne_nil hemp
    simp only [leafMissStep, hne, hm, Bool.false_eq_true, if_false, hsome, wtFinish]
    repeat' split
    all_goals try rfl
    all_goals simp_all

theorem leafMissStep_found_done (key : α) (write : Bool) (lp : LeafPage α) (base p : Nat)
    (hf : wtInsSearch key (chainAt lp (missSlot lp base)) 0 = .found p) :
    leafMissStep key write lp base =
      wtFinish write lp (chainAt lp (missSlot lp base)) true (some (base - 1))
        { srch_slot := some (missSlot lp base)
          srch_ins := none
          srch_vupdate := ((chainAt lp (missSlot lp base)).getD p default).upd
          srch_upd := some (.insUpd p) } := by
  have hne := isEmpty_false_of_found hf
  simp only [leafMissStep, hne, hf, Bool.false_eq_true, if_false]

omit [LinearOrder α] in
theorem leafMatchStep_done (key : α) (write : Bool) (lp : LeafPage α) (indx : Nat)
    (us : List (Option Upd)) (hupd : lp.upd = some us) :
    leafMatchStep key write lp indx =
      wtFinish write lp [] true (some indx)
        { srch_slot := some indx
          srch_upd := some (.leafUpd indx)
          srch_vupdate := us.getD indx none } := by
  simp only [leafMatchStep, hupd]

omit [LinearOrder α] in
theorem tombstoned_of_upd {lp : LeafPage α} {chain : List (Ins α)} {s : SResult}
    {r : UpdRef} {u : Upd} (hupd : s.srch_upd = some r)
    (hv : derefUpd lp chain r = some u) (hdel : u.deleted = true) :
    tombstoned lp chain s = true := by
  simp only [tombstoned, hupd, hv, hdel]

omit [LinearOrder α] in
theorem wtFinish_tomb (lp : LeafPage α) (chain : List (Ins α)) (matched : Bool)
    (ripIdx : Option Nat) (s : SResult) (ht : tombstoned lp chain s = true) :
    wtFinish false lp chain matched ripIdx s =
      { ret := WT_NOTFOUND, res := s, pinHeld := false } := by
  unfold wtFinish
  simp [ht]

/-! ### C3 -/

/-- C3: on a leaf miss the insert-chain search scans the page-wide "smallest" chain
(the extra insert-array slot `indx_count`) when the miss's `base` is 0 and otherwise
the bracketing slot `base - 1`'s chain; on a sorted chain it reports the match's
update reference at the first key-equal node (every earlier node is smaller), and
otherwise records as insertion point the link immediately preceding the first
greater node -- the slot's head link when no node was passed, else the `next` link
of the last passed node -- and splicing a node carrying the searched key at that
link's position keeps the chain sorted. -/
theorem c3_insert_chain_search (key : α) (write : Bool) (lp : LeafPage α)
    (base : Nat) (arr : List (List (Ins α)))
    (hloop : wtLeafSearch key lp.keys = .ok (none, base))
    (hins : lp.ins = some arr)
    (hsc : (chainAt lp (missSlot lp base)).Pairwise (fun x y => x.key < y.key)) :
    (base = 0 → chainAt lp (missSlot lp base) = arr.getD lp.keys.length []) ∧
    (base ≠ 0 → chainAt lp (missSlot lp base) = arr.getD (base - 1) []) ∧
    (∀ p, wtInsSearch key (chainAt lp (missSlot lp base)) 0 = .found p →
      (leafPhase key write lp).res.srch_upd = some (.insUpd p) ∧
      (leafPhase key write lp).res.srch_vupdate =
        ((chainAt lp (missSlot lp base)).getD p default).upd ∧
      (leafPhase key write lp).res.srch_ins = none ∧
      ((chainAt lp (missSlot lp base)).getD p default).key = key ∧
      (∀ i, i < p → ((chainAt lp (missSlot lp base)).getD i default).key < key)) ∧
    (∀ p, wtInsSearch key (chainAt lp (missSlot lp base)) 0 = .miss p →
      (leafPhase key write lp).res.srch_ins =
        (if p = 0 then some (.slotHead (missSlot lp base)) else some (.nodeNext (p - 1))) ∧
      linkSplicePos (if p = 0 then .slotHead (missSlot lp base) else .nodeNext (p - 1)) = p ∧
      (∀ u, (spliceAt (chainAt lp (missSlot lp base)) p ⟨key, u⟩).Pairwise
        (fun x y => x.key < y.key))) := by
  have hphase := leafPhase_miss_eq key write lp base hloop
  refine ⟨?_, ?_, ?_, ?_⟩
  · intro hb0
    simp [chainAt, hins, missSlot, hb0]
  · intro hb0
    simp [chainAt, hins, missSlot, hb0]
  · intro p hf
    rw [hphase]
    obtain ⟨h1, h2, h3⟩ := leafMissStep_found_fields key write lp base p hf
    obtain ⟨hq1, hq2, hq3⟩ := (wtInsSearch_spec key _ hsc).1 p hf
    exact ⟨h1, h2, h3, hq2, hq3⟩
  · intro p hm
    rw [hphase]
    have hsome : lp.ins.isSome = true := by rw [hins]; rfl
    refine ⟨leafMissStep_miss_fields key write lp base p hsome hm, ?_, ?_⟩
    · by_cases hp : p = 0
      · simp [hp, linkSplicePos]
      · simp [hp, linkSplicePos]
        omega
    · intro u
      obtain ⟨hq1, hq2, hq3⟩ := (wtInsSearch_spec key _ hsc).2 p hm
      exact spliceAt_sorted hq1 hq2 hq3 hsc

/-- Witness for C3 at a concrete page: miss between on-disk keys 20 and 40, chain
under the bracketing slot; a chain match and a chain miss are both exercised. -/
theorem c3_insert_chain_search_witness :
    (leafPhase (45 : Nat) false
        { keys := [.resident 20, .resident 40]
          ins := some [[], [⟨43, some ⟨false, 7⟩⟩, ⟨45, some ⟨false, 8⟩⟩], []] }).res.srch_upd =
      some (.insUpd 1) ∧
    (leafPhase (47 : Nat) true
        { keys := [.resident 20, .resident 40]
          ins := some [[], [⟨43, some ⟨false, 7⟩⟩, ⟨45, some ⟨false, 8⟩⟩], []] }).res.srch_ins =
      (if (2 : Nat) = 0 then some (.slotHead 1) else some (.nodeNext 1)) :=
  ⟨((c3_insert_chain_search (45 : Nat) false
      { keys := [.resident 20, .resident 40]
        ins := some [[], [⟨43, some ⟨false, 7⟩⟩, ⟨45, some ⟨false, 8⟩⟩], []] }
      2 [[], [⟨43, some ⟨false, 7⟩⟩, ⟨45, some ⟨false, 8⟩⟩], []]
      rfl rfl (by decide)).2.2.1 1 rfl).1,
   ((c3_insert_chain_search (47 : Nat) true
      { keys := [.resident 20, .resident 40]
        ins := some [[], [⟨43, some ⟨false, 7⟩⟩, ⟨45, some ⟨false, 8⟩⟩], []] }
      2 [[], [⟨43, some ⟨false, 7⟩⟩, ⟨45, some ⟨false, 8⟩⟩], []]
      rfl rfl (by decide)).2.2.2 2 rfl).1⟩

/-! ### C4 -/

/-- C4: every search that finds a key whose resident update is a tombstone -- by an
exact on-disk match whose update-array entry is a deleted update, or by an
insert-chain match whose node's update is deleted -- returns `WT_NOTFOUND` (with the
pin released) when `write_intent` is false, and returns 0 with the match flag set
and the tombstone exposed in `srch_vupdate` when `write_intent` is true. -/
theorem c4_tombstone_visibility (key : α) (lp : LeafPage α) :
    (∀ indx b us u, wtLeafSearch key lp.keys = .ok (some indx, b) →
      lp.upd = some us → us.getD indx none = some u → u.deleted = true →
      (leafPhase key false lp).ret = WT_NOTFOUND ∧
      (leafPhase key false lp).pinHeld = false ∧
      (leafPhase key true lp).ret = 0 ∧
      (leafPhase key true lp).res.srch_match = true ∧
      (leafPhase key true lp).res.srch_vupdate = some u) ∧
    (∀ base p u, wtLeafSearch key lp.keys = .ok (none, base) →
      wtInsSearch key (chainAt lp (missSlot lp base)) 0 = .found p →
      ((chainAt lp (missSlot lp base)).getD p default).upd = some u →
      u.deleted = true →
      (leafPhase key false lp).ret = WT_NOTFOUND ∧
      (leafPhase key false lp).pinHeld = false ∧
      (leafPhase key true lp).ret = 0 ∧
      (leafPhase key true lp).res.srch_match = true ∧
      (leafPhase key true lp).res.srch_vupdate = some u) := by
  constructor
  · intro indx b us u hloop hupd hu hdel
    have hm1 := leafPhase_match_eq key false lp indx b hloop
    have hm2 := leafPhase_match_eq key true lp indx b hloop
    have hv : derefUpd lp [] (.leafUpd indx) = some u := by
      simp only [derefUpd, hupd, Option.getD_some]
      exact hu
    have htomb : tombstoned lp []
        { srch_slot := some indx
          srch_upd := some (.leafUpd indx)
          srch_vupdate := us.getD indx none } = true :=
      tombstoned_of_upd rfl hv hdel
    refine ⟨?_, ?_, ?_, ?_, ?_⟩
    · rw [hm1, leafMatchStep_done key false lp indx us hupd, wtFinish_tomb _ _ _ _ _ htomb]
    · rw [hm1, leafMatchStep_done key false lp indx us hupd, wtFinish_tomb _ _ _ _ _ htomb]
    · rw [hm2, leafMatchStep_done key true lp indx us hupd, wtFinish_write_true]
    · rw [hm2, leafMatchStep_done key true lp indx us hupd, wtFinish_write_true]
    · rw [hm2, leafMatchStep_done key true lp indx us hupd, wtFinish_write_true]
      exact hu
  · intro base p u hloop hf hup hdel
    have hm1 := leafPhase_miss_eq key false lp base hloop
    have hm2 := leafPhase_miss_eq key true lp base hloop
    have hv : derefUpd lp (chainAt lp (missSlot lp base)) (.insUpd p) = some u := hup
    have htomb : tombstoned lp (chainAt lp (missSlot lp base))
        { srch_slot := some (missSlot lp base)
          srch_ins := none
          srch_vupdate := ((chainAt lp (missSlot lp base)).getD p default).upd
          srch_upd := some (.insUpd p) } = true :=
      tombstoned_of_upd rfl hv hdel
    refine ⟨?_, ?_, ?_, ?_, ?_⟩
    · rw [hm1, leafMissStep_found_done key false lp base p hf, wtFinish_tomb _ _ _ _ _ htomb]
    · rw [hm1, leafMissStep_found_done key false lp base p hf, wtFinish_tomb _ _ _ _ _ htomb]
    · rw [hm2, leafMissStep_found_done key true lp base p hf, wtFinish_write_true]
    · rw [hm2, leafMissStep_found_done key true lp base p hf, wtFinish_write_true]
    · rw [hm2, leafMissStep_found_done key true lp base p hf, wtFinish_write_true]
      exact hup

/-- Witness for C4: on-disk match of key 4 whose update-array entry is a tombstone. -/
theorem c4_tombstone_visibility_witness :
    (leafPhase (4 : Nat) false
        ({ keys := [.resident 2, .resident 4]
           upd := some [none, some ⟨true, 3⟩] } : LeafPage Nat)).ret = WT_NOTFOUND ∧
    (leafPhase (4 : Nat) true
        ({ keys := [.resident 2, .resident 4]
           upd := some [none, some ⟨true, 3⟩] } : LeafPage Nat)).res.srch_vupdate =
      some ⟨true, 3⟩ :=
  ⟨((c4_tombstone_visibility (4 : Nat)
      { keys := [.resident 2, .resident 4], upd := some [none, some ⟨true, 3⟩] }).1
      1 0 [none, some ⟨true, 3⟩] ⟨true, 3⟩ rfl rfl rfl rfl).1,
   ((c4_tombstone_visibility (4 : Nat)
      { keys := [.resident 2, .resident 4], upd := some [none, some ⟨true, 3⟩] }).1
      1 0 [none, some ⟨true, 3⟩] ⟨true, 3⟩ rfl rfl rfl rfl).2.2.2.2⟩

/-! ### C5 -/

/-- C5 counterexample: on the one-slot page `c5Page`, whose slot 0 carries the
nonempty chain `[7]`, searching the exactly matching on-disk key 5 with
`write_intent = true` returns with no insertion point recorded (`srch_ins = none`):
the insert-chain search was skipped (lines 158-165 `goto done`), refuting "the
insert-chain search is always run and the insertion point recorded". -/
theorem c5_counterexample :
    (leafPhase (5 : Nat) true c5Page).ret = 0 ∧
    (leafPhase (5 : Nat) true c5Page).res.srch_match = true ∧
    (leafPhase (5 : Nat) true c5Page).res.srch_ins = none ∧
    c5Page.ins.isSome = true := by decide

theorem leafMissStep_write_ret (key : α) (lp : LeafPage α) (base : Nat) :
    (leafMissStep key true lp base).ret = 0 := by
  simp only [leafMissStep, wtFinish]
  repeat' split
  all_goals try rfl
  all_goals simp_all

/-- C5 amended: with `write_intent` true the search always returns 0, but the
insert-chain search runs only on a leaf miss: on an exact on-disk match it is
skipped and no insertion point is recorded (`srch_ins = none`); on a leaf miss a
chain miss records the insertion point (head link when no node was passed, else the
last passed node's `next` link), while a chain match clears the insert pointer and
records the node's update reference instead. -/
theorem c5_amended_write_positioning (key : α) (lp : LeafPage α) :
    (∀ indx b, wtLeafSearch key lp.keys = .ok (some indx, b) →
      (leafPhase key true lp).ret = 0 ∧
      (leafPhase key true lp).res.srch_ins = none) ∧
    (∀ base, wtLeafSearch key lp.keys = .ok (none, base) →
      (leafPhase key true lp).ret = 0 ∧
      (∀ p, wtInsSearch key (chainAt lp (missSlot lp base)) 0 = .miss p →
        lp.ins.isSome = true →
        (leafPhase key true lp).res.srch_ins =
          (if p = 0 then some (.slotHead (missSlot lp base)) else some (.nodeNext (p - 1)))) ∧
      (∀ p, wtInsSearch key (chainAt lp (missSlot lp base)) 0 = .found p →
        (leafPhase key true lp).res.srch_ins = none ∧
        (leafPhase key true lp).res.srch_upd = some (.insUpd p))) := by
  constructor
  · intro indx b hloop
    rw [leafPhase_match_eq key true lp indx b hloop]
    cases hupd : lp.upd with
    | none =>
      simp only [leafMatchStep, hupd]
      rw [wtFinish_write_true]
      exact ⟨rfl, rfl⟩
    | some us =>
      rw [leafMatchStep_done key true lp indx us hupd, wtFinish_write_true]
      exact ⟨rfl, rfl⟩
  · intro base hloop
    rw [leafPhase_miss_eq key true lp base hloop]
    refine ⟨leafMissStep_write_ret key lp base, ?_, ?_⟩
    · intro p hm hsome
      exact leafMissStep_miss_fields key true lp base p hsome hm
    · intro p hf
      obtain ⟨h1, _, h3⟩ := leafMissStep_found_fields key true lp base p hf
      exact ⟨h3, h1⟩

/-- Witness for C5's amended claim: chain miss under the bracketing slot records
the last passed node's `next` link as the insertion point. -/
theorem c5_amended_write_positioning_witness :
    (leafPhase (47 : Nat) true
        ({ keys := [.resident 20, .resident 40]
           ins := some [[], [⟨43, none⟩, ⟨45, none⟩], []] } : LeafPage Nat)).ret = 0 ∧
    (leafPhase (47 : Nat) true
        ({ keys := [.resident 20, .resident 40]
           ins := some [[], [⟨43, none⟩, ⟨45, none⟩], []] } : LeafPage Nat)).res.srch_ins =
      (if (2 : Nat) = 0 then some (.slotHead 1) else some (.nodeNext 1)) :=
  ⟨((c5_amended_write_positioning (47 : Nat)
      { keys := [.resident 20, .resident 40]
        ins := some [[], [⟨43, none⟩, ⟨45, none⟩], []] }).2 2 rfl).1,
   ((c5_amended_write_positioning (47 : Nat)
      { keys := [.resident 20, .resident 40]
        ins := some [[], [⟨43, none⟩, ⟨45, none⟩], []] }).2 2 rfl).2.1 2 rfl rfl⟩

/-! ### C6 -/

/-- C6 counterexample: on `c6Page` a plain lookup of the absent key 1 completes
with `WT_NOTFOUND` -- a non-error completion -- yet the pin has been released by
the search itself (`WT_PAGE_OUT` on the shared `notfound`/`err` exit, lines
244-248) and no page is returned, refuting "the pin is retained by the returned
result on every non-error completion including NotFound". -/
theorem c6_counterexample :
    (leafPhase (1 : Nat) false c6Page).ret = WT_NOTFOUND ∧
    (leafPhase (1 : Nat) false c6Page).pinHeld = false ∧
    (leafPhase (1 : Nat) false c6Page).res.srch_page = false := by decide

theorem WT_NOTFOUND_ne_zero : WT_NOTFOUND ≠ 0 := by decide

omit [LinearOrder α] in
theorem wtFinish_pin_cases (write : Bool) (lp : LeafPage α) (chain : List (Ins α))
    (matched : Bool) (ripIdx : Option Nat) (s : SResult) (hpage : s.srch_page = false) :
    ((wtFinish write lp chain matched ripIdx s).ret = 0 ∧
      (wtFinish write lp chain matched ripIdx s).pinHeld = true ∧
      (wtFinish write lp chain matched ripIdx s).res.srch_page = true) ∨
    ((wtFinish write lp chain matched ripIdx s).ret ≠ 0 ∧
      (wtFinish write lp chain matched ripIdx s).pinHeld = false ∧
      (wtFinish write lp chain matched ripIdx s).res.srch_page = false) := by
  unfold wtFinish
  split
  · right
    exact ⟨WT_NOTFOUND_ne_zero, rfl, hpage⟩
  · left
    exact ⟨rfl, rfl, rfl⟩

theorem leafMissStep_pin_cases (key : α) (write : Bool) (lp : LeafPage α) (base : Nat) :
    ((leafMissStep key write lp base).ret = 0 ∧
      (leafMissStep key write lp base).pinHeld = true ∧
      (leafMissStep key write lp base).res.srch_page = true) ∨
    ((leafMissStep key write lp base).ret ≠ 0 ∧
      (leafMissStep key write lp base).pinHeld = false ∧
      (leafMissStep key write lp base).res.srch_page = false) := by
  simp only [leafMissStep]
  split
  · split
    · exact wtFinish_pin_cases _ _ _ _ _ _ rfl
    · right
      exact ⟨WT_NOTFOUND_ne_zero, rfl, rfl⟩
  · split
    · exact wtFinish_pin_cases _ _ _ _ _ _ rfl
    · split
      · exact wtFinish_pin_cases _ _ _ _ _ _ (by split <;> rfl)
      · right
        refine ⟨WT_NOTFOUND_ne_zero, rfl, ?_⟩
        show (if _ then _ else _ : SResult).srch_page = false
        split <;> rfl

theorem leafPhase_pin_cases (key : α) (write : Bool) (lp : LeafPage α) :
    ((leafPhase key write lp).ret = 0 ∧ (leafPhase key write lp).pinHeld = true ∧
      (leafPhase key write lp).res.srch_page = true) ∨
    ((leafPhase key write lp).ret ≠ 0 ∧ (leafPhase key write lp).pinHeld = false ∧
      (leafPhase key write lp).res.srch_page = false) := by
  unfold leafPhase
  cases hls : wtLeafSearch key lp.keys with
  | error e =>
    right
    exact ⟨e.2, rfl, rfl⟩
  | ok r =>
    rcases r with ⟨m, b⟩
    cases m with
    | some indx =>
      show ((leafMatchStep key write lp indx).ret = 0 ∧ _) ∨ _
      unfold leafMatchStep
      cases hupd : lp.upd with
      | none => exact wtFinish_pin_cases _ _ _ _ _ _ rfl
      | some us => exact wtFinish_pin_cases _ _ _ _ _ _ rfl
    | none =>
      exact leafMissStep_pin_cases key write lp b

/-- C6 amended: only a zero-return completion hands the leaf's pin to the caller
(`srch_page` set, pin retained); a `WT_NOTFOUND` completion and every error
completion release the pin inside the search (`WT_PAGE_OUT` on the shared
`notfound`/`err` exit) and return no page. -/
theorem c6_amended_pin_discipline (key : α) (write : Bool) (fuel : Nat) (root : RPage α) :
    ((wtRowSearch key write fuel root).ret = 0 →
      (wtRowSearch key write fuel root).pinHeld = true ∧
      (wtRowSearch key write fuel root).res.srch_page = true) ∧
    ((wtRowSearch key write fuel root).ret ≠ 0 →
      (wtRowSearch key write fuel root).pinHeld = false ∧
      (wtRowSearch key write fuel root).res.srch_page = false) := by
  unfold wtRowSearch
  cases hd : wtDescend key fuel root with
  | error e =>
    exact ⟨fun h0 => absurd h0 e.2, fun _ => ⟨rfl, rfl⟩⟩
  | ok lp =>
    rcases leafPhase_pin_cases key write lp with ⟨h1, h2, h3⟩ | ⟨h1, h2, h3⟩
    · exact ⟨fun _ => ⟨h2, h3⟩, fun hne => absurd h1 hne⟩
    · exact ⟨fun h0 => absurd h0 h1, fun _ => ⟨h2, h3⟩⟩

/-- Witness for C6's amended claim: a hit retains the pin, a NotFound releases it. -/
theorem c6_amended_pin_discipline_witness :
    (wtRowSearch (2 : Nat) false 1 (.pleaf c6Page)).pinHeld = true ∧
    (wtRowSearch (1 : Nat) false 1 (.pleaf c6Page)).pinHeld = false :=
  ⟨((c6_amended_pin_discipline (2 : Nat) false 1 (.pleaf c6Page)).1 rfl).1,
   ((c6_amended_pin_discipline (1 : Nat) false 1 (.pleaf c6Page)).2 (by decide)).1⟩

/-! ### C9 -/

/-- C9: when pinning a child during descent fails, or cell decoding during leaf key
materialization fails, the search aborts at once, releases the pin it holds,
propagates the collaborator's nonzero error code verbatim as its return value, and
returns no partial result: every `srch_*` field is still in its cleared initial
state. -/
theorem c9_error_propagation (key : α) (write : Bool) (fuel : Nat) (root : RPage α)
    (e : ErrCode) :
    (wtDescend key fuel root = .error e →
      wtRowSearch key write fuel root = { ret := e.1, res := {}, pinHeld := false }) ∧
    (∀ lp, wtDescend key fuel root = .ok lp →
      wtLeafSearch key lp.keys = .error e →
      wtRowSearch key write fuel root = { ret := e.1, res := {}, pinHeld := false }) := by
  constructor
  · intro hd
    unfold wtRowSearch
    rw [hd]
  · intro lp hd hleaf
    have h1 : wtRowSearch key write fuel root = leafPhase key write lp := by
      unfold wtRowSearch
      rw [hd]
    rw [h1]
    unfold leafPhase
    rw [hleaf]

/-- Witness for C9: a pin failure (-7) on the selected child of `c9Tree` and a cell
decode failure (-9) on `c9Leaf` both yield an aborted search with cleared fields. -/
theorem c9_error_propagation_witness :
    wtRowSearch (5 : Nat) false 2 c9Tree = { ret := -7, res := {}, pinHeld := false } ∧
    wtRowSearch (3 : Nat) false 1 (.pleaf c9Leaf) =
      { ret := -9, res := {}, pinHeld := false } :=
  ⟨(c9_error_propagation (5 : Nat) false 2 c9Tree ⟨-7, by decide⟩).1 rfl,
   (c9_error_propagation (3 : Nat) false 1 (.pleaf c9Leaf) ⟨-9, by decide⟩).2 c9Leaf rfl rfl⟩

/-! ### C10 -/

/-- C10: on every leaf miss the search records in `srch_slot` the slot to use when
allocating the page's update/insert arrays: the page's slot count itself (the extra
"smallest" position one past the last on-disk slot) when the miss's `base` is 0,
and the bracketing slot `base - 1` otherwise. -/
theorem c10_miss_records_alloc_slot (key : α) (write : Bool) (lp : LeafPage α)
    (base : Nat) (hloop : wtLeafSearch key lp.keys = .ok (none, base)) :
    (leafPhase key write lp).res.srch_slot = some (missSlot lp base) ∧
    (base = 0 → (leafPhase key write lp).res.srch_slot = some lp.keys.length) ∧
    (base ≠ 0 → (leafPhase key write lp).res.srch_slot = some (base - 1)) := by
  rw [leafPhase_miss_eq key write lp base hloop]
  refine ⟨leafMissStep_slot key write lp base, ?_, ?_⟩
  · intro hb0
    rw [leafMissStep_slot key write lp base]
    simp [missSlot, hb0]
  · intro hb0
    rw [leafMissStep_slot key write lp base]
    simp [missSlot, hb0]

/-- Witness for C10: a key below every on-disk key (base 0) records the extra
"smallest" slot, equal to the slot count. -/
theorem c10_miss_records_alloc_slot_witness :
    (leafPhase (1 : Nat) false c6Page).res.srch_slot = some 1 :=
  (c10_miss_records_alloc_slot (1 : Nat) false c6Page 0 rfl).2.1 rfl

/-! ### C7 -/

/-- C7: every observable state of the slot's key pair during the serial publish
(pointer store first, `WT_MEMORY_FLUSH`, then the nonzero size store, lines 359-370)
is either fully pending (`size = 0`, which covers the intermediate
new-pointer/still-zero-size state), the complete new pointer-size pair, or the
untouched original state -- never a mix of a new pointer-size pair with an old one;
a pending slot ends fully resident with the published pair, and an already
instantiated slot is not written at all. -/
theorem c7_publish_invariant (k : RowKey) (tmpPtr : KeyPtr) (tmpSize : Nat)
    (_hsz : 0 < tmpSize) :
    (∀ st ∈ keyBuildSerialStates k tmpPtr tmpSize,
      st.size = 0 ∨ (st.ptr = tmpPtr ∧ st.size = tmpSize) ∨ st = k) ∧
    (k.size = 0 →
      (keyBuildSerialStates k tmpPtr tmpSize).getLast? = some ⟨tmpPtr, tmpSize⟩) ∧
    (k.size ≠ 0 → keyBuildSerialStates k tmpPtr tmpSize = [k]) := by
  unfold keyBuildSerialStates
  by_cases h0 : k.size = 0
  · rw [if_pos h0]
    refine ⟨?_, fun _ => rfl, fun hne => absurd h0 hne⟩
    intro st hst
    rcases List.mem_cons.mp hst with rfl | hst
    · exact Or.inl h0
    · rcases List.mem_cons.mp hst with rfl | hst
      · exact Or.inl h0
      · rcases List.mem_cons.mp hst with rfl | hst
        · exact Or.inr (Or.inl ⟨rfl, rfl⟩)
        · cases hst
  · rw [if_neg h0]
    refine ⟨?_, fun h => absurd h h0, fun _ => rfl⟩
    intro st hst
    rcases List.mem_cons.mp hst with rfl | hst
    · exact Or.inr (Or.inr rfl)
    · cases hst

/-- Witness for C7: publishing a 3-byte key over a pending slot ends resident. -/
theorem c7_publish_invariant_witness :
    (0 : Nat) < 3 ∧
    (keyBuildSerialStates ⟨.cell 0, 0⟩ (.buffer 1) 3).getLast? = some ⟨.buffer 1, 3⟩ :=
  ⟨by decide, (c7_publish_invariant ⟨.cell 0, 0⟩ (.buffer 1) 3 (by decide)).2.1 rfl⟩

/-! ### C8 -/

/-- C8: the materializer is idempotent: on a slot whose pointer is already off-page
(an allocated buffer) it returns success immediately without allocating, decoding or
modifying anything (the state is unchanged); starting from a well-formed slot, a
second materialization after a first one is the identity, so any number of
materializations yield the same final resident state and byte content as one; and a
run whose serial step finds the key already instantiated (so its locally built
buffer is not the slot's stored pointer afterwards) frees that buffer, stores no new
buffer, and leaves the concurrently published slot in place. -/
theorem c8_materializer_idempotent (decode : Nat → Option (List Nat)) (s : MatState) :
    (∀ b0, s.slot.ptr = .buffer b0 → wtKeyBuild decode s = some s) ∧
    (wellformedKey s.slot →
      ∀ s2, wtKeyBuild decode s = some s2 → wtKeyBuild decode s2 = some s2) ∧
    (∀ k2 c bytes s2, s.slot.ptr = .cell c → decode c = some bytes →
      k2.size ≠ 0 → k2.ptr ≠ .buffer s.nextBuf →
      wtKeyBuildR decode (some k2) s = some s2 →
      s.nextBuf ∈ s2.freed ∧ s2.slot = k2 ∧ s2.bufs = s.bufs) := by
  refine ⟨?_, ?_, ?_⟩
  · intro b0 hb
    simp [wtKeyBuild, wtKeyBuildR, hb]
  · intro hwf s2 h2
    rcases hwf with ⟨h0, c, hc⟩ | ⟨hpos, b, hb⟩
    · cases hd : decode c with
      | none =>
        have hcalc : wtKeyBuild decode s = none := by
          unfold wtKeyBuild wtKeyBuildR
          simp only [hc]
          rw [hd]
        rw [hcalc] at h2
        exact Option.noConfusion h2
      | some bytes =>
        have hcalc : wtKeyBuild decode s = some
            { slot := ⟨.buffer s.nextBuf, bytes.length⟩
              nextBuf := s.nextBuf + 1
              bufs := s.bufs ++ [(s.nextBuf, bytes)]
              freed := s.freed } := by
          unfold wtKeyBuild wtKeyBuildR
          simp only [hc]
          rw [hd]
          simp [keyBuildSerial, h0, Option.getD_none]
        rw [hcalc] at h2
        injection h2 with h3
        subst h3
        simp [wtKeyBuild, wtKeyBuildR]
    · have h1 : wtKeyBuild decode s = some s := by
        simp [wtKeyBuild, wtKeyBuildR, hb]
      rw [h1] at h2
      injection h2 with h3
      subst h3
      simp [wtKeyBuild, wtKeyBuildR, hb]
  · intro k2 c bytes s2 hc hd hk2 hfresh h2
    have hcalc : wtKeyBuildR decode (some k2) s = some
        { slot := k2
          nextBuf := s.nextBuf + 1
          bufs := s.bufs
          freed := s.freed ++ [s.nextBuf] } := by
      unfold wtKeyBuildR
      simp only [hc]
      rw [hd]
      simp [keyBuildSerial, hk2, hfresh, Option.getD_some]
    rw [hcalc] at h2
    injection h2 with h3
    subst h3
    exact ⟨by simp, rfl, rfl⟩

/-- Witness for C8: a resident slot is untouched; re-materializing the result of a
first materialization is the identity; a run that lost the publish race frees its
buffer (id 0) and keeps the winner's slot. -/
theorem c8_materializer_idempotent_witness :
    wtKeyBuild (fun _ => some [1, 2, 3]) { slot := ⟨.buffer 5, 3⟩ } =
      some { slot := ⟨.buffer 5, 3⟩ } ∧
    wtKeyBuild (fun _ => some [1, 2, 3])
        { slot := ⟨.buffer 0, 3⟩, nextBuf := 1, bufs := [(0, [1, 2, 3])], freed := [] } =
      some { slot := ⟨.buffer 0, 3⟩, nextBuf := 1, bufs := [(0, [1, 2, 3])], freed := [] } ∧
    ((0 : Nat) ∈ ({ slot := ⟨.buffer 9, 3⟩, nextBuf := 1, bufs := [], freed := [0] } : MatState).freed ∧
      ({ slot := ⟨.buffer 9, 3⟩, nextBuf := 1, bufs := [], freed := [0] } : MatState).slot =
        ⟨.buffer 9, 3⟩ ∧
      ({ slot := ⟨.buffer 9, 3⟩, nextBuf := 1, bufs := [], freed := [0] } : MatState).bufs =
        ({ slot := ⟨.cell 0, 0⟩ } : MatState).bufs) :=
  ⟨(c8_materializer_idempotent (fun _ => some [1, 2, 3]) { slot := ⟨.buffer 5, 3⟩ }).1 5 rfl,
   (c8_materializer_idempotent (fun _ => some [1, 2, 3]) { slot := ⟨.cell 0, 0⟩ }).2.1
     (Or.inl ⟨rfl, 0, rfl⟩)
     { slot := ⟨.buffer 0, 3⟩, nextBuf := 1, bufs := [(0, [1, 2, 3])], freed := [] } rfl,
   (c8_materializer_idempotent (fun _ => some [1, 2, 3]) { slot := ⟨.cell 0, 0⟩ }).2.2
     ⟨.buffer 9, 3⟩ 0 [1, 2, 3]
     { slot := ⟨.buffer 9, 3⟩, nextBuf := 1, bufs := [], freed := [0] }
     rfl rfl (by decide) (by decide) rfl⟩

end WTRowSearch
